import Mathlib

/-!
Verification development for the news-filtering core (filter.py, config.py)
of the CryptoGoldAlertBot repository.

The Python code is shallowly embedded: dictionaries become structures with
optional fields (a missing dictionary key is the value none), Python floats
become rationals, Python exceptions become Option results, and the mutable
NewsFilter object becomes explicit state passing over FilterState.
Character classes (str.lower, str.isspace, the regex class for word
characters) are modelled on the ASCII fragment, which covers all inputs
considered here.
-/

/-- Model of str.lower applied characterwise (ASCII fragment). -/
def lowerStr (s : String) : String := ⟨s.data.map Char.toLower⟩

/-- Word characters of the regex character class used in is_duplicate
(alphanumeric or underscore; ASCII fragment of the Unicode class). -/
def isWordChar (c : Char) : Bool := c.isAlphanum || c = '_'

/-- Model of the Python substring test (pat in hay) on character lists. -/
def containsSub : List Char → List Char → Bool
  | [], pat => pat.isEmpty
  | c :: rest, pat => pat.isPrefixOf (c :: rest) || containsSub rest pat

/-- Substring test on strings, as used for keyword and source checks. -/
def containsSubS (hay pat : String) : Bool := containsSub hay.data pat.data

/-- Fuel-indexed core of str.count: counts non-overlapping occurrences of a
nonempty pattern, scanning left to right.  Fuel equal to the haystack length
suffices because every step consumes at least one character. -/
def countOccsF : Nat → List Char → List Char → Nat
  | _, _, [] => 0
  | 0, _, _ => 0
  | _ + 1, [], _ :: _ => 0
  | fuel + 1, c :: rest, p :: ps =>
    if (p :: ps).isPrefixOf (c :: rest) then
      1 + countOccsF fuel ((c :: rest).drop (p :: ps).length) (p :: ps)
    else countOccsF fuel rest (p :: ps)

/-- Model of str.count (non-overlapping occurrences; for the empty pattern
Python returns length + 1). -/
def countOccs (s pat : List Char) : Nat :=
  if pat.isEmpty then s.length + 1 else countOccsF s.length s pat

/-- Accumulator-based whitespace tokenizer: the accumulator holds the
current word reversed. -/
def splitWordsAux : List Char → List Char → List (List Char)
  | [], acc => if acc = [] then [] else [acc.reverse]
  | c :: rest, acc =>
    if c.isWhitespace then
      if acc = [] then splitWordsAux rest [] else acc.reverse :: splitWordsAux rest []
    else splitWordsAux rest (c :: acc)

/-- Model of str.split with no argument: split on whitespace runs,
discarding empty tokens. -/
def splitWords (s : List Char) : List (List Char) := splitWordsAux s []

/-- Model of str.strip with no argument: drop leading and trailing
whitespace. -/
def trimL (s : List Char) : List Char :=
  (((s.dropWhile Char.isWhitespace).reverse.dropWhile Char.isWhitespace)).reverse

/-- The title normalization of is_duplicate: lowercase, delete every
character that is neither a word character nor whitespace, then strip. -/
def normalizeL (s : List Char) : List Char :=
  trimL ((s.map Char.toLower).filter (fun c => isWordChar c || c.isWhitespace))

/-- Configuration fields of config.py that the filtering core reads. -/
structure Config where
  CRYPTO_KEYWORDS : List String
  GOLD_KEYWORDS : List String
  MAX_STORED_HEADLINES : Nat

/-- The keyword lists and history bound of config.py. -/
def defaultConfig : Config where
  CRYPTO_KEYWORDS :=
    ["bitcoin", "ethereum", "binance", "etf", "crypto", "cryptocurrency",
     "altcoin", "market", "bull", "bear", "trading", "btc", "eth",
     "blockchain", "defi", "nft", "coin", "digital", "mining",
     "wallet", "exchange", "price", "surge", "rally", "drop",
     "investment", "token", "decentralized", "web3"]
  GOLD_KEYWORDS :=
    ["gold", "precious", "metals", "bullion", "mining", "miners",
     "copper", "silver", "commodity", "resources", "exploration",
     "discovery", "reserves", "production", "output", "market",
     "price", "investment", "safe", "haven", "inflation"]
  MAX_STORED_HEADLINES := 50

/-- An article dictionary; none models a missing key. -/
structure Article where
  title : Option String
  summary : Option String
  category : Option String
  source : Option String
  relevance_score : Option ℚ

/-- The mutable state of a NewsFilter object: the in-memory
sent_headlines list and the headlines stored in SENT_HEADLINES_FILE. -/
structure FilterState where
  sent_headlines : List String
  fileContents : List String

/-- Python negative-start slice l[-n:]: for n = 0 the whole list, otherwise
the last n elements (all of them when n exceeds the length). -/
def sliceLastN (n : Nat) (l : List α) : List α :=
  if n = 0 then l else l.drop (l.length - n)

/-- save_sent_headlines: rewrite the file with the most recent
MAX_STORED_HEADLINES entries of the in-memory list.  The in-memory list is
not modified. -/
def save_sent_headlines (cfg : Config) (st : FilterState) : FilterState :=
  { st with fileContents := sliceLastN cfg.MAX_STORED_HEADLINES st.sent_headlines }

/-- mark_as_sent: append the raw title to the in-memory list, then save. -/
def mark_as_sent (cfg : Config) (st : FilterState) (title : String) : FilterState :=
  save_sent_headlines cfg { st with sent_headlines := st.sent_headlines ++ [title] }

/-- similarity_ratio: word-set Jaccard ratio of two strings, with the early
returns of the source (0.0 for an empty string, an empty word set, or an
empty union). -/
def similarity_ratioQ (s1 s2 : List Char) : ℚ :=
  if s1 = [] ∨ s2 = [] then 0
  else
    let words1 := (splitWords s1).toFinset
    let words2 := (splitWords s2).toFinset
    if words1 = ∅ ∨ words2 = ∅ then 0
    else
      let inter := (words1 ∩ words2).card
      let union := (words1 ∪ words2).card
      if 0 < union then (inter : ℚ) / (union : ℚ) else 0

/-- is_duplicate: exact membership in the history, else a normalized
similarity above 0.85 against some stored title. -/
def is_duplicate (hist : List String) (title : String) : Bool :=
  if hist.contains title then true
  else
    hist.any fun sent =>
      decide ((17 : ℚ) / 20 < similarity_ratioQ (normalizeL title.data) (normalizeL sent.data))

/-- contains_keywords: some keyword, lowercased, is a substring of the
lowercased text. -/
def contains_keywords (text : String) (keywords : List String) : Bool :=
  keywords.any fun k => containsSubS (lowerStr text) (lowerStr k)

/-- The important_terms table of calculate_relevance_score. -/
def importantTerms : List (String × ℚ) :=
  [("breaking", 3), ("urgent", 3), ("alert", 5/2), ("crash", 5/2),
   ("surge", 2), ("rally", 2), ("record", 2), ("high", 3/2),
   ("low", 3/2), ("regulation", 2), ("ban", 5/2), ("approval", 2)]

/-- Keyword part of the relevance score: per keyword, title occurrences
weighted 2.0 and summary occurrences weighted 1.0. -/
def keywordScore (keywords : List String) (title summary : String) : ℚ :=
  (keywords.map fun k =>
    (countOccs title.data (lowerStr k).data : ℚ) * 2 +
    (countOccs summary.data (lowerStr k).data : ℚ) * 1).sum

/-- Bonus part of the relevance score: each important term present in the
combined text contributes its weight once. -/
def bonusScore (combined : String) : ℚ :=
  ((importantTerms.filter fun tw => containsSubS combined tw.1).map fun tw => tw.2).sum

/-- Relevance score for a chosen keyword list (body of
calculate_relevance_score after the category dispatch). -/
def scoreWith (keywords : List String) (a : Article) : ℚ :=
  keywordScore keywords (lowerStr (a.title.getD "")) (lowerStr (a.summary.getD "")) +
  bonusScore (lowerStr (a.title.getD "") ++ " " ++ lowerStr (a.summary.getD ""))

/-- calculate_relevance_score: title and summary default to the empty
string, but the category key is read with a plain subscript, so a missing
category raises (modelled as none). -/
def calculate_relevance_score (cfg : Config) (a : Article) : Option ℚ :=
  match a.category with
  | none => none
  | some c =>
    some (scoreWith (if c = "crypto" then cfg.CRYPTO_KEYWORDS else cfg.GOLD_KEYWORDS) a)

/-- The combined title-and-summary text used by the keyword gate. -/
def titleSummary (a : Article) : String :=
  (a.title.getD "") ++ " " ++ (a.summary.getD "")

/-- The keyword gate of filter_articles, including the trusted-source
fallbacks of each category branch. -/
def keywordGate (cfg : Config) (ts src : String) (c : String) : Bool :=
  if c = "crypto" then
    contains_keywords ts cfg.CRYPTO_KEYWORDS
      || containsSubS (lowerStr src) "coindesk"
      || containsSubS (lowerStr src) "cointelegraph"
      || containsSubS (lowerStr src) "decrypt"
  else
    contains_keywords ts cfg.GOLD_KEYWORDS || containsSubS (lowerStr src) "mining"

/-- One iteration of the filter_articles loop body.  The result none covers
every skip: missing or empty title, duplicate, failed keyword gate, a score
below 0.1, and any exception caught by the per-article handler (here the
KeyError of a missing category). -/
def processArticle (cfg : Config) (hist : List String) (a : Article) : Option Article :=
  match a.title with
  | none => none
  | some t =>
    if t = "" then none
    else if is_duplicate hist t then none
    else
      match a.category with
      | none => none
      | some c =>
        if keywordGate cfg (titleSummary a) (a.source.getD "") c then
          match calculate_relevance_score cfg a with
          | none => none
          | some sc =>
            if (1 : ℚ) / 10 ≤ sc then some { a with relevance_score := some sc } else none
        else none

/-- Stateful view of the loop body: it reads sent_headlines through
is_duplicate and leaves the state unchanged. -/
def processArticleSt (cfg : Config) (st : FilterState) (a : Article) :
    Option Article × FilterState :=
  (processArticle cfg st.sent_headlines a, st)

/-- The accumulation loop of filter_articles, threading the filter state
through each per-article step. -/
def filterLoopSt (cfg : Config) : FilterState → List Article → List Article × FilterState
  | st, [] => ([], st)
  | st, a :: rest =>
    let step := processArticleSt cfg st a
    let tail := filterLoopSt cfg step.2 rest
    (match step.1 with
     | some b => b :: tail.1
     | none => tail.1, tail.2)

/-- Sort key of the final sort: relevance_score with default 0. -/
def scoreKey (a : Article) : ℚ := a.relevance_score.getD 0

/-- Stable descending insertion step: the new element goes in front of the
first element whose key is not larger.  This realizes the semantics of the
stable Python sort with reverse set (equal keys keep their original
order). -/
def insDesc (x : Article) : List Article → List Article
  | [] => [x]
  | y :: ys => if scoreKey y ≤ scoreKey x then x :: y :: ys else y :: insDesc x ys

/-- Stable descending sort by relevance_score. -/
def sortByScoreDesc : List Article → List Article
  | [] => []
  | x :: xs => insDesc x (sortByScoreDesc xs)

/-- filter_articles with explicit state: run the loop, sort the survivors
by descending score, and truncate to min 6 of the length. -/
def filter_articlesSt (cfg : Config) (st : FilterState) (articles : List Article) :
    List Article × FilterState :=
  let fl := filterLoopSt cfg st articles
  let sorted := sortByScoreDesc fl.1
  (sorted.take (min 6 sorted.length), fl.2)

/-- filter_articles as a function of the history list alone (the file
contents play no part in filtering). -/
def filter_articles (cfg : Config) (hist : List String) (articles : List Article) :
    List Article :=
  (filter_articlesSt cfg { sent_headlines := hist, fileContents := [] } articles).1

/-- The list of accepted articles before sorting and truncation. -/
def acceptedList (cfg : Config) (hist : List String) (articles : List Article) :
    List Article :=
  articles.filterMap (processArticle cfg hist)

/-! ### Definitions taken from the wording of the specification -/

/-- Modelled from the spec wording of claim C3: normalization is
lowercasing plus deletion of non-word, non-whitespace characters. -/
def specNormalize (s : List Char) : List Char :=
  (s.map Char.toLower).filter (fun c => isWordChar c || c.isWhitespace)

/-- The whitespace-tokenized word set of a string. -/
def wordSet (s : List Char) : Finset (List Char) := (splitWords s).toFinset

/-- Modelled from the spec wording of claim C3: Jaccard similarity of two
word sets, 0 when either is empty. -/
def jaccardSpec (w1 w2 : Finset (List Char)) : ℚ :=
  if w1 = ∅ ∨ w2 = ∅ then 0 else ((w1 ∩ w2).card : ℚ) / ((w1 ∪ w2).card : ℚ)

/-- Modelled from the spec wording of claim C3: a title is a duplicate iff
it matches a stored title exactly or its normalized word set has Jaccard
similarity above 0.85 with that of some stored title. -/
def specDuplicate (hist : List String) (title : String) : Prop :=
  title ∈ hist ∨
    ∃ sent ∈ hist,
      (17 : ℚ) / 20 <
        jaccardSpec (wordSet (specNormalize title.data)) (wordSet (specNormalize sent.data))

/-! ### Concrete instances used by counterexamples and witnesses -/

/-- A gold-category article accepted by every gate (score 6). -/
def goldArt : Article := ⟨some "gold price surge", some "", some "gold", some "", none⟩

/-- The same article after filtering annotated it with its score. -/
def goldArtScored : Article := { goldArt with relevance_score := some 6 }

/-- An article whose title is a single space (whitespace-only). -/
def wsArt : Article := ⟨some " ", some "gold price", some "gold", some "", none⟩

/-- The whitespace-titled article with its computed score attached. -/
def wsArtScored : Article := { wsArt with relevance_score := some 2 }

/-- An article with a title but no category key: reading it raises. -/
def badArt : Article := ⟨some "x", none, none, none, none⟩

/-- A keyword list with overlapping entries: coin occurs inside bitcoin. -/
def overlapConfig : Config :=
  { CRYPTO_KEYWORDS := ["bitcoin", "coin"], GOLD_KEYWORDS := [], MAX_STORED_HEADLINES := 50 }

/-- Crypto article whose title holds one bitcoin occurrence. -/
def btcArt : Article := ⟨some "bitcoin", some "", some "crypto", some "", none⟩

/-- The same article with a second bitcoin occurrence added to the title. -/
def btcArt2 : Article := ⟨some "bitcoin bitcoin", some "", some "crypto", some "", none⟩

/-- A configuration with the single keyword gold, for the C5 witness. -/
def singleKwConfig : Config :=
  { CRYPTO_KEYWORDS := [], GOLD_KEYWORDS := ["gold"], MAX_STORED_HEADLINES := 50 }

/-- Witness article with one gold occurrence in the title. -/
def wArt : Article := ⟨some "gold", some "x", some "gold", none, none⟩

/-- The witness article with one more gold occurrence in the title. -/
def wArt2 : Article := ⟨some "gold gold", some "x", some "gold", none, none⟩

/-- An article with a category outside the crypto and gold enum. -/
def stockArt : Article := ⟨some "gold up", none, some "stocks", some "Mining Weekly", none⟩

/-! ### Structural lemmas about the loop, the scorer, and the sort -/

/-- The keyword part of the score is the cast of a natural-number sum. -/
theorem keywordScore_natCast (kws : List String) (t s : String) :
    keywordScore kws t s =
      ((kws.map fun k =>
        2 * countOccs t.data (lowerStr k).data + countOccs s.data (lowerStr k).data).sum : ℕ) := by
  induction kws with
  | nil => simp [keywordScore]
  | cons k ks ih =>
    simp only [keywordScore, List.map_cons, List.sum_cons] at ih ⊢
    rw [ih]
    push_cast
    ring

/-- The loop leaves the filter state unchanged. -/
theorem filterLoopSt_snd (cfg : Config) (st : FilterState) (arts : List Article) :
    (filterLoopSt cfg st arts).2 = st := by
  induction arts with
  | nil => rfl
  | cons a rest ih => simp [filterLoopSt, processArticleSt, ih]

/-- The survivors of the loop are a filterMap of the per-article step. -/
theorem filterLoopSt_fst (cfg : Config) (st : FilterState) (arts : List Article) :
    (filterLoopSt cfg st arts).1 = arts.filterMap (processArticle cfg st.sent_headlines) := by
  induction arts with
  | nil => rfl
  | cons a rest ih =>
    simp only [filterLoopSt, processArticleSt, List.filterMap_cons]
    cases processArticle cfg st.sent_headlines a <;> simp [ih]

/-- filter_articles is the sorted accepted list truncated at six. -/
theorem filter_articles_eq (cfg : Config) (hist : List String) (arts : List Article) :
    filter_articles cfg hist arts =
      (sortByScoreDesc (acceptedList cfg hist arts)).take 6 := by
  unfold filter_articles filter_articlesSt acceptedList
  dsimp only
  rw [filterLoopSt_fst]
  rw [List.take_eq_take]
  omega

/-- Membership in an insertion step. -/
theorem mem_insDesc (x a : Article) (l : List Article) :
    a ∈ insDesc x l ↔ a = x ∨ a ∈ l := by
  induction l with
  | nil => simp [insDesc]
  | cons y ys ih =>
    by_cases h : scoreKey y ≤ scoreKey x
    · simp [insDesc, h]
    · simp only [insDesc, if_neg h, List.mem_cons, ih]
      tauto

/-- Length of an insertion step. -/
theorem length_insDesc (x : Article) (l : List Article) :
    (insDesc x l).length = l.length + 1 := by
  induction l with
  | nil => rfl
  | cons y ys ih =>
    by_cases h : scoreKey y ≤ scoreKey x
    · simp [insDesc, h]
    · simp [insDesc, h, ih]

/-- Sorting preserves length. -/
theorem length_sortByScoreDesc (l : List Article) :
    (sortByScoreDesc l).length = l.length := by
  induction l with
  | nil => rfl
  | cons x xs ih => simp [sortByScoreDesc, length_insDesc, ih]

/-- Sorting preserves membership. -/
theorem mem_sortByScoreDesc (a : Article) (l : List Article) :
    a ∈ sortByScoreDesc l ↔ a ∈ l := by
  induction l with
  | nil => simp [sortByScoreDesc]
  | cons x xs ih => simp [sortByScoreDesc, mem_insDesc, ih]

/-- Insertion preserves the descending-key chain. -/
theorem pairwise_insDesc (x : Article) (l : List Article)
    (h : l.Pairwise fun a b => scoreKey b ≤ scoreKey a) :
    (insDesc x l).Pairwise fun a b => scoreKey b ≤ scoreKey a := by
  induction l with
  | nil => simp [insDesc]
  | cons y ys ih =>
    rcases List.pairwise_cons.mp h with ⟨hy, hys⟩
    simp only [insDesc]
    by_cases hc : scoreKey y ≤ scoreKey x
    · rw [if_pos hc]
      refine List.pairwise_cons.mpr ⟨?_, h⟩
      intro b hb
      rcases List.mem_cons.mp hb with rfl | hb
      · exact hc
      · exact le_trans (hy b hb) hc
    · rw [if_neg hc]
      refine List.pairwise_cons.mpr ⟨?_, ih hys⟩
      intro b hb
      rcases (mem_insDesc x b ys).mp hb with rfl | hb
      · exact le_of_not_le hc
      · exact hy b hb

/-- The sorted list is descending in the score key. -/
theorem pairwise_sortByScoreDesc (l : List Article) :
    (sortByScoreDesc l).Pairwise fun a b => scoreKey b ≤ scoreKey a := by
  induction l with
  | nil => simp [sortByScoreDesc]
  | cons x xs ih => exact pairwise_insDesc x _ ih

/-- Inserting an element of key q prepends it to the q-slice; any other
insertion leaves the q-slice unchanged. -/
theorem filter_insDesc (x : Article) (l : List Article) (q : ℚ) :
    (insDesc x l).filter (fun a => decide (scoreKey a = q)) =
      if scoreKey x = q then x :: l.filter (fun a => decide (scoreKey a = q))
      else l.filter (fun a => decide (scoreKey a = q)) := by
  induction l with
  | nil => by_cases h : scoreKey x = q <;> simp [insDesc, h]
  | cons y ys ih =>
    simp only [insDesc]
    by_cases hc : scoreKey y ≤ scoreKey x
    · rw [if_pos hc]
      by_cases hx : scoreKey x = q <;> simp [List.filter_cons, hx]
    · rw [if_neg hc]
      have hlt : scoreKey x < scoreKey y := lt_of_not_le hc
      by_cases hx : scoreKey x = q
      · have hy : ¬ scoreKey y = q := by
          intro h
          rw [h, hx] at hlt
          exact lt_irrefl q hlt
        simp [List.filter_cons, hy, ih, hx]
      · by_cases hy : scoreKey y = q <;>
          simp [List.filter_cons, hy, ih, hx]

/-- Stability: for every key value, the sort keeps the subsequence of
elements with that key unchanged. -/
theorem filter_sortByScoreDesc (l : List Article) (q : ℚ) :
    (sortByScoreDesc l).filter (fun a => decide (scoreKey a = q)) =
      l.filter (fun a => decide (scoreKey a = q)) := by
  induction l with
  | nil => rfl
  | cons x xs ih =>
    simp only [sortByScoreDesc, filter_insDesc, ih, List.filter_cons]
    by_cases hx : scoreKey x = q <;> simp [hx]

/-! ### Tokenizer lemmas: stripping does not change the word list -/

/-- A trailing whitespace character does not change the token list. -/
theorem splitWordsAux_append_ws (w : Char) (hw : w.isWhitespace = true) :
    ∀ (s acc : List Char), splitWordsAux (s ++ [w]) acc = splitWordsAux s acc := by
  intro s
  induction s with
  | nil =>
    intro acc
    by_cases h : acc = [] <;> simp [splitWordsAux, hw, h]
  | cons c rest ih =>
    intro acc
    by_cases hc : c.isWhitespace = true
    · by_cases h : acc = [] <;> simp [splitWordsAux, hc, h, ih]
    · simp [splitWordsAux, hc, ih]

/-- A whitespace-only suffix does not change the token list. -/
theorem splitWordsAux_append_ws_list (t : List Char) (hws : ∀ c ∈ t, c.isWhitespace = true) :
    ∀ (s acc : List Char), splitWordsAux (s ++ t) acc = splitWordsAux s acc := by
  induction t with
  | nil => simp
  | cons w t ih =>
    intro s acc
    have hw : w.isWhitespace = true := hws w (List.mem_cons_self w t)
    have ht : ∀ c ∈ t, c.isWhitespace = true := fun c hc => hws c (List.mem_cons_of_mem w hc)
    have : s ++ w :: t = (s ++ [w]) ++ t := by simp
    rw [this, ih ht (s ++ [w]) acc, splitWordsAux_append_ws w hw]

/-- A whitespace-only suffix does not change the word list. -/
theorem splitWords_append_ws_list (t : List Char) (hws : ∀ c ∈ t, c.isWhitespace = true)
    (s : List Char) : splitWords (s ++ t) = splitWords s :=
  splitWordsAux_append_ws_list t hws s []

/-- Leading whitespace does not change the token list. -/
theorem splitWords_dropWhile (s : List Char) :
    splitWords (s.dropWhile Char.isWhitespace) = splitWords s := by
  induction s with
  | nil => rfl
  | cons c rest ih =>
    by_cases hc : c.isWhitespace = true
    · rw [List.dropWhile_cons_of_pos hc]
      rw [ih]
      simp [splitWords, splitWordsAux, hc]
    · rw [List.dropWhile_cons_of_neg (by simp [hc])]

/-- Stripping leading and trailing whitespace does not change the token
list. -/
theorem splitWords_trimL (s : List Char) : splitWords (trimL s) = splitWords s := by
  unfold trimL
  set u := s.dropWhile Char.isWhitespace with hu
  have hsplit : u.reverse.takeWhile Char.isWhitespace ++ u.reverse.dropWhile Char.isWhitespace
      = u.reverse := List.takeWhile_append_dropWhile Char.isWhitespace u.reverse
  have hms : ∀ c ∈ (u.reverse.takeWhile Char.isWhitespace).reverse, c.isWhitespace = true := by
    intro c hc
    exact List.mem_takeWhile_imp (List.mem_reverse.mp hc)
  have hu2 : u = (u.reverse.dropWhile Char.isWhitespace).reverse
      ++ (u.reverse.takeWhile Char.isWhitespace).reverse := by
    conv_lhs => rw [← List.reverse_reverse u, ← hsplit]
    rw [List.reverse_append]
  calc splitWords (u.reverse.dropWhile Char.isWhitespace).reverse
      = splitWords ((u.reverse.dropWhile Char.isWhitespace).reverse
          ++ (u.reverse.takeWhile Char.isWhitespace).reverse) :=
        (splitWords_append_ws_list _ hms _).symm
    _ = splitWords u := by rw [← hu2]
    _ = splitWords s := by rw [hu, splitWords_dropWhile]

/-- similarity_ratio computes exactly the Jaccard similarity of the two
word sets as the spec defines it. -/
theorem similarity_ratioQ_eq_jaccard (s1 s2 : List Char) :
    similarity_ratioQ s1 s2 = jaccardSpec (wordSet s1) (wordSet s2) := by
  unfold similarity_ratioQ jaccardSpec wordSet
  by_cases h1 : s1 = []
  · subst h1
    simp [splitWords, splitWordsAux]
  · by_cases h2 : s2 = []
    · subst h2
      simp [splitWords, splitWordsAux]
    · rw [if_neg (by tauto)]
      dsimp only
      by_cases hw : (splitWords s1).toFinset = ∅ ∨ (splitWords s2).toFinset = ∅
      · rw [if_pos hw, if_pos hw]
      · rw [if_neg hw, if_neg hw]
        push_neg at hw
        have hne : ((splitWords s1).toFinset ∪ (splitWords s2).toFinset).Nonempty := by
          rcases Finset.nonempty_of_ne_empty hw.1 with ⟨a, ha⟩
          exact ⟨a, Finset.mem_union_left _ ha⟩
        rw [if_pos (Finset.card_pos.mpr hne)]

/-! ### Per-article processing lemmas -/

/-- An article without a category key is skipped by the loop body: either
an earlier gate drops it, or reading the category raises and the exception
handler skips it. -/
theorem processArticle_category_none (cfg : Config) (hist : List String) (a : Article)
    (h : a.category = none) : processArticle cfg hist a = none := by
  unfold processArticle
  cases ht : a.title with
  | none => rfl
  | some t =>
    rw [h]
    dsimp only
    split_ifs <;> rfl

/-- An accepted article keeps its title, which was present and nonempty. -/
theorem processArticle_some (cfg : Config) (hist : List String) (a b : Article)
    (h : processArticle cfg hist a = some b) :
    b.title = a.title ∧ ∃ t, a.title = some t ∧ t ≠ "" := by
  unfold processArticle at h
  cases ht : a.title with
  | none => rw [ht] at h; cases h
  | some t =>
    rw [ht] at h
    dsimp only at h
    by_cases h1 : t = ""
    · rw [if_pos h1] at h; cases h
    · rw [if_neg h1] at h
      by_cases h2 : is_duplicate hist t = true
      · rw [if_pos h2] at h; cases h
      · rw [if_neg h2] at h
        cases hc : a.category with
        | none => rw [hc] at h; cases h
        | some c =>
          rw [hc] at h
          dsimp only at h
          by_cases h3 : keywordGate cfg (titleSummary a) (a.source.getD "") c = true
          · rw [if_pos h3] at h
            cases hcalc : calculate_relevance_score cfg a with
            | none => rw [hcalc] at h; cases h
            | some sc =>
              rw [hcalc] at h
              dsimp only at h
              by_cases h4 : (1 : ℚ) / 10 ≤ sc
              · rw [if_pos h4] at h
                injection h with hb
                subst hb
                exact ⟨rfl, t, rfl, h1⟩
              · rw [if_neg h4] at h; cases h
          · rw [if_neg h3] at h; cases h

/-- Any false predicate over the important terms gives bonus zero. -/
theorem bonusScore_eq_zero (c : String)
    (h : (importantTerms.all fun tw => !containsSubS c tw.1) = true) : bonusScore c = 0 := by
  unfold bonusScore
  have hf : importantTerms.filter (fun tw => containsSubS c tw.1) = [] := by
    rw [List.filter_eq_nil_iff]
    intro a ha
    have := List.all_eq_true.mp h a ha
    simpa using this
  rw [hf]
  rfl

/-! ### Score-delta lemmas for claim C5 -/

/-- Summing a mapped function over a list where exactly one element changes
by d changes the sum by d. -/
theorem map_sum_delta (l : List String) (f g : String → ℚ) (k : String) (d : ℚ)
    (hcount : l.count k = 1) (hk : g k = f k + d)
    (hoth : ∀ x ∈ l, x ≠ k → g x = f x) :
    (l.map g).sum = (l.map f).sum + d := by
  induction l with
  | nil => simp at hcount
  | cons x xs ih =>
    by_cases hx : x = k
    · subst hx
      have hzero : xs.count x = 0 := by
        have := hcount
        rw [List.count_cons_self] at this
        omega
      have hnm : x ∉ xs := List.count_eq_zero.mp hzero
      have : xs.map g = xs.map f := by
        apply List.map_congr_left
        intro y hy
        exact hoth y (List.mem_cons_of_mem x hy) (fun hyk => hnm (hyk ▸ hy))
      simp only [List.map_cons, List.sum_cons, this, hk]
      ring
    · have hcnt : xs.count k = 1 := by
        have := hcount
        rw [List.count_cons_of_ne (Ne.symm hx)] at this
        exact this
      have := ih hcnt (fun y hy hyk => hoth y (List.mem_cons_of_mem x hy) hyk)
      simp only [List.map_cons, List.sum_cons, this, hoth x (List.mem_cons_self x xs) hx]
      ring

/-- Unchanged presence of every important term gives an unchanged bonus. -/
theorem bonusScore_congr (c c2 : String)
    (h : ∀ tw ∈ importantTerms, containsSubS c2 tw.1 = containsSubS c tw.1) :
    bonusScore c2 = bonusScore c := by
  unfold bonusScore
  rw [List.filter_congr (fun tw htw => h tw htw)]

/-! ### Concrete evaluation helpers -/

/-- Evaluate the keyword score through its natural-number form. -/
theorem keywordScore_eval (kws : List String) (t s : String) (n : ℕ)
    (h : (kws.map fun k =>
      2 * countOccs t.data (lowerStr k).data + countOccs s.data (lowerStr k).data).sum = n) :
    keywordScore kws t s = (n : ℚ) := by
  rw [keywordScore_natCast, h]

/-- The score of an article with a category key is the score over the
category-selected keyword list. -/
theorem calc_some (cfg : Config) (a : Article) (c : String) (hc : a.category = some c) :
    calculate_relevance_score cfg a =
      some (scoreWith (if c = "crypto" then cfg.CRYPTO_KEYWORDS else cfg.GOLD_KEYWORDS) a) := by
  unfold calculate_relevance_score
  rw [hc]

/-- A single article accepted by the loop body passes through sorting and
truncation untouched. -/
theorem filter_articles_singleton (cfg : Config) (hist : List String) (a b : Article)
    (h : processArticle cfg hist a = some b) :
    filter_articles cfg hist [a] = [b] := by
  rw [filter_articles_eq]
  simp [acceptedList, h, sortByScoreDesc, insDesc]

/-- Score of the gold article: 2 from gold, 2 from price, bonus 2 from
surge. -/
theorem calc_goldArt : calculate_relevance_score defaultConfig goldArt = some 6 := by
  have hk : keywordScore defaultConfig.GOLD_KEYWORDS (lowerStr "gold price surge") (lowerStr "")
      = (4 : ℚ) := keywordScore_eval _ _ _ 4 (by decide)
  have hb : bonusScore (lowerStr "gold price surge" ++ " " ++ lowerStr "") = 2 := by
    have h5 : containsSubS (lowerStr "gold price surge" ++ " " ++ lowerStr "") "surge" = true := by
      decide
    have hrest : ∀ tw ∈ importantTerms, tw.1 ≠ "surge" →
        containsSubS (lowerStr "gold price surge" ++ " " ++ lowerStr "") tw.1 = false := by decide
    have h1 := hrest ("breaking", 3) (by simp [importantTerms]) (by decide)
    have h2 := hrest ("urgent", 3) (by simp [importantTerms]) (by decide)
    have h3 := hrest ("alert", 5/2) (by simp [importantTerms]) (by decide)
    have h4 := hrest ("crash", 5/2) (by simp [importantTerms]) (by decide)
    have h6 := hrest ("rally", 2) (by simp [importantTerms]) (by decide)
    have h7 := hrest ("record", 2) (by simp [importantTerms]) (by decide)
    have h8 := hrest ("high", 3/2) (by simp [importantTerms]) (by decide)
    have h9 := hrest ("low", 3/2) (by simp [importantTerms]) (by decide)
    have h10 := hrest ("regulation", 2) (by simp [importantTerms]) (by decide)
    have h11 := hrest ("ban", 5/2) (by simp [importantTerms]) (by decide)
    have h12 := hrest ("approval", 2) (by simp [importantTerms]) (by decide)
    simp only [bonusScore, importantTerms, List.filter, h1, h2, h3, h4, h5, h6, h7, h8, h9,
      h10, h11, h12, List.map_cons, List.map_nil, List.sum_cons, List.sum_nil]
    norm_num
  rw [calc_some defaultConfig goldArt "gold" rfl]
  rw [if_neg (by decide)]
  unfold scoreWith
  simp only [goldArt, Option.getD_some]
  rw [hk, hb]
  norm_num

/-- The loop body accepts an article once every gate passes. -/
theorem processArticle_accepts (cfg : Config) (hist : List String) (a : Article)
    (t c : String) (q : ℚ)
    (ht : a.title = some t) (hne : t ≠ "")
    (hd : is_duplicate hist t = false)
    (hc : a.category = some c)
    (hg : keywordGate cfg (titleSummary a) (a.source.getD "") c = true)
    (hcalc : calculate_relevance_score cfg a = some q)
    (hq : (1 : ℚ) / 10 ≤ q) :
    processArticle cfg hist a = some { a with relevance_score := some q } := by
  unfold processArticle
  rw [ht]
  dsimp only
  rw [if_neg hne]
  rw [if_neg (show ¬ is_duplicate hist t = true by simp [hd])]
  rw [hc]
  dsimp only
  rw [if_pos hg, hcalc]
  dsimp only
  rw [if_pos hq]

/-- The gold article is accepted with score 6. -/
theorem proc_goldArt : processArticle defaultConfig [] goldArt = some goldArtScored :=
  processArticle_accepts defaultConfig [] goldArt "gold price surge" "gold" 6
    rfl (by decide) (by decide) rfl (by decide) calc_goldArt (by norm_num)

/-- Score of the whitespace-titled article: gold and price in the summary. -/
theorem calc_wsArt : calculate_relevance_score defaultConfig wsArt = some 2 := by
  have hk : keywordScore defaultConfig.GOLD_KEYWORDS (lowerStr " ") (lowerStr "gold price")
      = (2 : ℚ) := keywordScore_eval _ _ _ 2 (by decide)
  have hb : bonusScore (lowerStr " " ++ " " ++ lowerStr "gold price") = 0 :=
    bonusScore_eq_zero _ (by decide)
  rw [calc_some defaultConfig wsArt "gold" rfl, if_neg (by decide)]
  unfold scoreWith
  simp only [wsArt, Option.getD_some]
  rw [hk, hb]
  norm_num

/-- The whitespace-titled article is accepted with score 2. -/
theorem proc_wsArt : processArticle defaultConfig [] wsArt = some wsArtScored :=
  processArticle_accepts defaultConfig [] wsArt " " "gold" 2
    rfl (by decide) (by decide) rfl (by decide) calc_wsArt (by norm_num)

/-- Score of the one-bitcoin article against the overlapping keyword list:
bitcoin counts once and coin counts once inside it. -/
theorem calc_btcArt : calculate_relevance_score overlapConfig btcArt = some 4 := by
  have hk : keywordScore overlapConfig.CRYPTO_KEYWORDS (lowerStr "bitcoin") (lowerStr "")
      = (4 : ℚ) := keywordScore_eval _ _ _ 4 (by decide)
  have hb : bonusScore (lowerStr "bitcoin" ++ " " ++ lowerStr "") = 0 :=
    bonusScore_eq_zero _ (by decide)
  rw [calc_some overlapConfig btcArt "crypto" rfl, if_pos rfl]
  unfold scoreWith
  simp only [btcArt, Option.getD_some]
  rw [hk, hb]
  norm_num

/-- Score of the two-bitcoin article: both keywords count twice. -/
theorem calc_btcArt2 : calculate_relevance_score overlapConfig btcArt2 = some 8 := by
  have hk : keywordScore overlapConfig.CRYPTO_KEYWORDS (lowerStr "bitcoin bitcoin") (lowerStr "")
      = (8 : ℚ) := keywordScore_eval _ _ _ 8 (by decide)
  have hb : bonusScore (lowerStr "bitcoin bitcoin" ++ " " ++ lowerStr "") = 0 :=
    bonusScore_eq_zero _ (by decide)
  rw [calc_some overlapConfig btcArt2 "crypto" rfl, if_pos rfl]
  unfold scoreWith
  simp only [btcArt2, Option.getD_some]
  rw [hk, hb]
  norm_num

/-- Score of the C5 witness article with the single keyword gold. -/
theorem calc_wArt : calculate_relevance_score singleKwConfig wArt = some 2 := by
  have hk : keywordScore singleKwConfig.GOLD_KEYWORDS (lowerStr "gold") (lowerStr "x")
      = (2 : ℚ) := keywordScore_eval _ _ _ 2 (by decide)
  have hb : bonusScore (lowerStr "gold" ++ " " ++ lowerStr "x") = 0 :=
    bonusScore_eq_zero _ (by decide)
  rw [calc_some singleKwConfig wArt "gold" rfl, if_neg (by decide)]
  unfold scoreWith
  simp only [wArt, Option.getD_some]
  rw [hk, hb]
  norm_num

/-! ### Claim theorems -/

/-- C1 counterexample: starting from an in-memory history already at the
cap of 50, one mark_as_sent call leaves 51 entries in the history the
duplicate detector consults, so the claimed bound fails as stated. -/
theorem C1_counterexample :
    defaultConfig.MAX_STORED_HEADLINES = 50 ∧
    (mark_as_sent defaultConfig ⟨List.replicate 50 "t", []⟩ "u").sent_headlines.length = 51 ∧
    ¬ (51 ≤ 50) := by
  refine ⟨rfl, ?_, by omega⟩
  simp [mark_as_sent, save_sent_headlines]

/-- C1 amended: mark_as_sent appends the raw title to the in-memory history
without truncating it; only the persisted copy is truncated to the most
recent MAX_STORED_HEADLINES entries, so the persisted history never exceeds
the cap (for a positive cap) while the in-memory history grows by one on
every call. -/
theorem C1_mark_as_sent_bound (cfg : Config) (st : FilterState) (t : String) :
    (mark_as_sent cfg st t).sent_headlines = st.sent_headlines ++ [t] ∧
    (0 < cfg.MAX_STORED_HEADLINES →
      (mark_as_sent cfg st t).fileContents.length ≤ cfg.MAX_STORED_HEADLINES) := by
  constructor
  · rfl
  · intro hpos
    unfold mark_as_sent save_sent_headlines sliceLastN
    dsimp only
    rw [if_neg (by omega)]
    simp only [List.length_drop]
    omega

/-- C1 witness: a concrete mark_as_sent call appends its title and keeps
the persisted copy within the default cap. -/
theorem C1_mark_as_sent_bound_witness :
    (mark_as_sent defaultConfig ⟨[], []⟩ "x").sent_headlines = [] ++ ["x"] ∧
    (mark_as_sent defaultConfig ⟨[], []⟩ "x").fileContents.length
      ≤ defaultConfig.MAX_STORED_HEADLINES :=
  ⟨(C1_mark_as_sent_bound defaultConfig ⟨[], []⟩ "x").1,
   (C1_mark_as_sent_bound defaultConfig ⟨[], []⟩ "x").2 (by decide)⟩

/-- C2 counterexample: an article whose title is a single space, with
keyword-rich summary, is accepted by filter_articles, so whitespace-only
titles are not excluded as claimed. -/
theorem C2_counterexample :
    wsArt.title = some " " ∧ (" " : String).data.all Char.isWhitespace = true ∧
    filter_articles defaultConfig [] [wsArt] = [wsArtScored] :=
  ⟨rfl, by decide, filter_articles_singleton defaultConfig [] wsArt wsArtScored proc_wsArt⟩

/-- C2 amended: every article in the output of filter_articles has a title
key holding a string that is not the empty string; articles with a missing
or empty title are excluded, but a whitespace-only title passes the gate. -/
theorem C2_title_nonempty (cfg : Config) (hist : List String) (arts : List Article)
    (b : Article) (hb : b ∈ filter_articles cfg hist arts) :
    ∃ t, b.title = some t ∧ t ≠ "" := by
  rw [filter_articles_eq] at hb
  have hb2 : b ∈ sortByScoreDesc (acceptedList cfg hist arts) := List.mem_of_mem_take hb
  rw [mem_sortByScoreDesc] at hb2
  unfold acceptedList at hb2
  rcases List.mem_filterMap.mp hb2 with ⟨a, _, hpa⟩
  rcases processArticle_some cfg hist a b hpa with ⟨htitle, t, hat, hne⟩
  exact ⟨t, htitle.trans hat, hne⟩

/-- C2 witness: the accepted gold article has a nonempty title. -/
theorem C2_title_nonempty_witness : ∃ t, goldArtScored.title = some t ∧ t ≠ "" :=
  C2_title_nonempty defaultConfig [] [goldArt] goldArtScored
    (by rw [filter_articles_singleton defaultConfig [] goldArt goldArtScored proc_goldArt]
        exact List.mem_singleton_self _)

/-- C6 counterexample: calculate_relevance_score reads the category key
with a plain subscript, so an article without it raises a KeyError
(modelled none) instead of returning a score. -/
theorem C6_counterexample :
    calculate_relevance_score defaultConfig ⟨some "gold", none, none, none, none⟩ = none := rfl

/-- C6 amended: for every article whose category key is present, the scorer
treats a missing title or summary as the empty string and returns a
non-negative score without raising; a missing category key raises. -/
theorem C6_nonneg (cfg : Config) (a : Article) (c : String) (hc : a.category = some c) :
    ∃ q, calculate_relevance_score cfg a = some q ∧ 0 ≤ q := by
  rw [calc_some cfg a c hc]
  refine ⟨_, rfl, ?_⟩
  unfold scoreWith
  have h1 : 0 ≤ keywordScore (if c = "crypto" then cfg.CRYPTO_KEYWORDS else cfg.GOLD_KEYWORDS)
      (lowerStr (a.title.getD "")) (lowerStr (a.summary.getD "")) := by
    unfold keywordScore
    apply List.sum_nonneg
    intro x hx
    rcases List.mem_map.mp hx with ⟨k, _, rfl⟩
    positivity
  have h2 : 0 ≤ bonusScore
      (lowerStr (a.title.getD "") ++ " " ++ lowerStr (a.summary.getD "")) := by
    unfold bonusScore
    apply List.sum_nonneg
    intro x hx
    rcases List.mem_map.mp hx with ⟨tw, htw, rfl⟩
    have hmem := List.mem_of_mem_filter htw
    fin_cases hmem <;> norm_num
  linarith

/-- C6 witness: the gold article gets a non-negative score. -/
theorem C6_nonneg_witness :
    ∃ q, calculate_relevance_score defaultConfig goldArt = some q ∧ 0 ≤ q :=
  C6_nonneg defaultConfig goldArt "gold" rfl

/-- C7: the per-article exception handler makes failures local: an article
whose category read raises is skipped, the remaining articles are processed,
and filter_articles returns the same list as without the bad article. -/
theorem C7_exception_local (cfg : Config) (hist : List String)
    (pre post : List Article) (bad : Article) (h : bad.category = none) :
    processArticle cfg hist bad = none ∧
    filter_articles cfg hist (pre ++ bad :: post) = filter_articles cfg hist (pre ++ post) := by
  have hnone := processArticle_category_none cfg hist bad h
  refine ⟨hnone, ?_⟩
  rw [filter_articles_eq, filter_articles_eq]
  unfold acceptedList
  rw [List.filterMap_append, List.filterMap_append, List.filterMap_cons_none hnone]

/-- C7 witness: a concrete batch with a category-less article yields the
same output as the batch without it. -/
theorem C7_exception_local_witness :
    badArt.category = none ∧
    (processArticle defaultConfig [] badArt = none ∧
     filter_articles defaultConfig [] ([goldArt] ++ badArt :: []) =
       filter_articles defaultConfig [] ([goldArt] ++ [])) :=
  ⟨rfl, C7_exception_local defaultConfig [] [goldArt] [] badArt rfl⟩

/-- C8: filter_articles never mutates the sent-title history, and a second
run from the resulting state on the same input returns the same output. -/
theorem C8_no_history_mutation (cfg : Config) (st : FilterState) (arts : List Article) :
    (filter_articlesSt cfg st arts).2 = st ∧
    (filter_articlesSt cfg st arts).1 =
      (filter_articlesSt cfg ((filter_articlesSt cfg st arts).2) arts).1 := by
  have hsnd : (filter_articlesSt cfg st arts).2 = st := by
    unfold filter_articlesSt
    dsimp only
    exact filterLoopSt_snd cfg st arts
  exact ⟨hsnd, by rw [hsnd]⟩

/-- C9: any category other than the exact string crypto, including values
outside the crypto-gold enum, is routed to the gold keyword list and the
mining source fallback, in the keyword gate and the scorer alike. -/
theorem C9_nongold_fallback (cfg : Config) (a : Article) (c : String)
    (hc : a.category = some c) (hnc : c ≠ "crypto") :
    keywordGate cfg (titleSummary a) (a.source.getD "") c =
      (contains_keywords (titleSummary a) cfg.GOLD_KEYWORDS
        || containsSubS (lowerStr (a.source.getD "")) "mining") ∧
    calculate_relevance_score cfg a = some (scoreWith cfg.GOLD_KEYWORDS a) := by
  constructor
  · unfold keywordGate
    rw [if_neg hnc]
  · rw [calc_some cfg a c hc, if_neg hnc]

/-- C9 witness: an article with category stocks takes the gold branch. -/
theorem C9_nongold_fallback_witness :
    keywordGate defaultConfig (titleSummary stockArt) (stockArt.source.getD "") "stocks" =
      (contains_keywords (titleSummary stockArt) defaultConfig.GOLD_KEYWORDS
        || containsSubS (lowerStr (stockArt.source.getD "")) "mining") ∧
    calculate_relevance_score defaultConfig stockArt =
      some (scoreWith defaultConfig.GOLD_KEYWORDS stockArt) :=
  C9_nongold_fallback defaultConfig stockArt "stocks" rfl (by decide)

/-- C10: duplicate checking is only against the history, not within a
batch: two identical fresh titles are both accepted, so the output can
contain duplicate titles. -/
theorem C10_batch_duplicates :
    filter_articles defaultConfig [] [goldArt, goldArt] = [goldArtScored, goldArtScored] ∧
    goldArtScored.title = some "gold price surge" ∧
    is_duplicate [] "gold price surge" = false := by
  refine ⟨?_, rfl, by decide⟩
  rw [filter_articles_eq]
  simp [acceptedList, proc_goldArt, sortByScoreDesc, insDesc]

/-- Stripping before tokenizing does not change the word set. -/
theorem wordSet_normalizeL (s : List Char) :
    wordSet (normalizeL s) = wordSet (specNormalize s) := by
  unfold wordSet normalizeL specNormalize
  rw [splitWords_trimL]

/-- C3: is_duplicate answers true exactly when the raw title occurs in the
history or the Jaccard similarity of the normalized word sets against some
stored title exceeds 0.85. -/
theorem C3_is_duplicate_iff (hist : List String) (title : String) :
    is_duplicate hist title = true ↔ specDuplicate hist title := by
  have hsim : ∀ sent : String,
      similarity_ratioQ (normalizeL title.data) (normalizeL sent.data)
        = jaccardSpec (wordSet (specNormalize title.data)) (wordSet (specNormalize sent.data)) := by
    intro sent
    rw [similarity_ratioQ_eq_jaccard, wordSet_normalizeL, wordSet_normalizeL]
  unfold is_duplicate specDuplicate
  by_cases hmem : hist.contains title = true
  · rw [if_pos hmem]
    constructor
    · intro _
      left
      simpa using hmem
    · intro _
      rfl
  · rw [if_neg hmem]
    rw [List.any_eq_true]
    constructor
    · rintro ⟨sent, hs, hdec⟩
      right
      exact ⟨sent, hs, by rw [← hsim sent]; exact of_decide_eq_true hdec⟩
    · rintro (hmem2 | ⟨sent, hs, hgt⟩)
      · exact absurd (by simpa using hmem2 : hist.contains title = true) hmem
      · exact ⟨sent, hs, decide_eq_true (by rw [hsim sent]; exact hgt)⟩

/-- C3 witness: a title stored verbatim is reported as a duplicate. -/
theorem C3_is_duplicate_iff_witness : specDuplicate ["a"] "a" :=
  (C3_is_duplicate_iff ["a"] "a").mp (by decide)

/-- C4: the output length is the minimum of six and the number of accepted
articles, the output is descending in the score key, every output article
scores at least as high as every accepted article dropped by truncation,
and for each score value the sorted list keeps the accepted sublist of that
score unchanged (stable ties). -/
theorem C4_rank_truncate (cfg : Config) (hist : List String) (arts : List Article) :
    (filter_articles cfg hist arts).length = min 6 (acceptedList cfg hist arts).length ∧
    (filter_articles cfg hist arts).Pairwise (fun a b => scoreKey b ≤ scoreKey a) ∧
    (∀ a ∈ filter_articles cfg hist arts,
      ∀ b ∈ (sortByScoreDesc (acceptedList cfg hist arts)).drop 6, scoreKey b ≤ scoreKey a) ∧
    (∀ q : ℚ,
      (sortByScoreDesc (acceptedList cfg hist arts)).filter (fun a => decide (scoreKey a = q))
        = (acceptedList cfg hist arts).filter (fun a => decide (scoreKey a = q))) := by
  refine ⟨?_, ?_, ?_, fun q => filter_sortByScoreDesc _ q⟩
  · rw [filter_articles_eq, List.length_take, length_sortByScoreDesc]
  · rw [filter_articles_eq]
    exact List.Pairwise.sublist (List.take_sublist 6 _) (pairwise_sortByScoreDesc _)
  · rw [filter_articles_eq]
    intro a ha b hb
    have hpw := pairwise_sortByScoreDesc (acceptedList cfg hist arts)
    rw [← List.take_append_drop 6 (sortByScoreDesc (acceptedList cfg hist arts)),
      List.pairwise_append] at hpw
    exact hpw.2.2 a ha b hb

/-- C4 witness: with one accepted article the output length is the minimum
of six and one. -/
theorem C4_rank_truncate_witness :
    (filter_articles defaultConfig [] [goldArt]).length
      = min 6 (acceptedList defaultConfig [] [goldArt]).length :=
  (C4_rank_truncate defaultConfig [] [goldArt]).1

/-- Changing one keyword occurrence count in the title by dT and in the
summary by dS, all else equal, shifts the score by 2 dT + dS. -/
theorem scoreWith_delta (kws : List String) (a a2 : Article) (k : String) (dT dS : ℕ)
    (hcount : kws.count k = 1)
    (hT : countOccs (lowerStr (a2.title.getD "")).data (lowerStr k).data
        = countOccs (lowerStr (a.title.getD "")).data (lowerStr k).data + dT)
    (hS : countOccs (lowerStr (a2.summary.getD "")).data (lowerStr k).data
        = countOccs (lowerStr (a.summary.getD "")).data (lowerStr k).data + dS)
    (hoth : ∀ k2 ∈ kws, k2 ≠ k →
      countOccs (lowerStr (a2.title.getD "")).data (lowerStr k2).data
        = countOccs (lowerStr (a.title.getD "")).data (lowerStr k2).data ∧
      countOccs (lowerStr (a2.summary.getD "")).data (lowerStr k2).data
        = countOccs (lowerStr (a.summary.getD "")).data (lowerStr k2).data)
    (hbonus : ∀ tw ∈ importantTerms,
      containsSubS (lowerStr (a2.title.getD "") ++ " " ++ lowerStr (a2.summary.getD "")) tw.1
        = containsSubS (lowerStr (a.title.getD "") ++ " " ++ lowerStr (a.summary.getD "")) tw.1) :
    scoreWith kws a2 = scoreWith kws a + ((2 * dT + dS : ℕ) : ℚ) := by
  unfold scoreWith
  have hbn := bonusScore_congr _ _ hbonus
  have hkw : keywordScore kws (lowerStr (a2.title.getD "")) (lowerStr (a2.summary.getD ""))
      = keywordScore kws (lowerStr (a.title.getD "")) (lowerStr (a.summary.getD ""))
        + ((2 * dT + dS : ℕ) : ℚ) := by
    unfold keywordScore
    apply map_sum_delta kws _ _ k _ hcount
    · rw [hT, hS]
      push_cast
      ring
    · intro x hx hxk
      rcases hoth x hx hxk with ⟨h1, h2⟩
      rw [h1, h2]
  rw [hkw, hbn]
  ring

/-- C5 amended: when incrementing the title occurrence count of a keyword
occurring once in the category keyword list leaves every other keyword
count and every bonus term presence unchanged, the score rises by exactly
2.0; the same for the summary raises it by exactly 1.0.  Without that
proviso the original claim fails, because keywords may overlap. -/
theorem C5_score_delta :
    (∀ (cfg : Config) (a a2 : Article) (c k : String) (kws : List String) (q : ℚ),
      a.category = some c → a2.category = some c →
      (if c = "crypto" then cfg.CRYPTO_KEYWORDS else cfg.GOLD_KEYWORDS) = kws →
      kws.count k = 1 →
      countOccs (lowerStr (a2.title.getD "")).data (lowerStr k).data
        = countOccs (lowerStr (a.title.getD "")).data (lowerStr k).data + 1 →
      countOccs (lowerStr (a2.summary.getD "")).data (lowerStr k).data
        = countOccs (lowerStr (a.summary.getD "")).data (lowerStr k).data →
      (∀ k2 ∈ kws, k2 ≠ k →
        countOccs (lowerStr (a2.title.getD "")).data (lowerStr k2).data
          = countOccs (lowerStr (a.title.getD "")).data (lowerStr k2).data ∧
        countOccs (lowerStr (a2.summary.getD "")).data (lowerStr k2).data
          = countOccs (lowerStr (a.summary.getD "")).data (lowerStr k2).data) →
      (∀ tw ∈ importantTerms,
        containsSubS (lowerStr (a2.title.getD "") ++ " " ++ lowerStr (a2.summary.getD "")) tw.1
          = containsSubS (lowerStr (a.title.getD "") ++ " " ++ lowerStr (a.summary.getD "")) tw.1) →
      calculate_relevance_score cfg a = some q →
      calculate_relevance_score cfg a2 = some (q + 2) ∧ q < q + 2) ∧
    (∀ (cfg : Config) (a a2 : Article) (c k : String) (kws : List String) (q : ℚ),
      a.category = some c → a2.category = some c →
      (if c = "crypto" then cfg.CRYPTO_KEYWORDS else cfg.GOLD_KEYWORDS) = kws →
      kws.count k = 1 →
      countOccs (lowerStr (a2.title.getD "")).data (lowerStr k).data
        = countOccs (lowerStr (a.title.getD "")).data (lowerStr k).data →
      countOccs (lowerStr (a2.summary.getD "")).data (lowerStr k).data
        = countOccs (lowerStr (a.summary.getD "")).data (lowerStr k).data + 1 →
      (∀ k2 ∈ kws, k2 ≠ k →
        countOccs (lowerStr (a2.title.getD "")).data (lowerStr k2).data
          = countOccs (lowerStr (a.title.getD "")).data (lowerStr k2).data ∧
        countOccs (lowerStr (a2.summary.getD "")).data (lowerStr k2).data
          = countOccs (lowerStr (a.summary.getD "")).data (lowerStr k2).data) →
      (∀ tw ∈ importantTerms,
        containsSubS (lowerStr (a2.title.getD "") ++ " " ++ lowerStr (a2.summary.getD "")) tw.1
          = containsSubS (lowerStr (a.title.getD "") ++ " " ++ lowerStr (a.summary.getD "")) tw.1) →
      calculate_relevance_score cfg a = some q →
      calculate_relevance_score cfg a2 = some (q + 1) ∧ q < q + 1) := by
  constructor
  · intro cfg a a2 c k kws q hc hc2 hkws hcount hT hS hoth hbonus hq
    rw [calc_some cfg a c hc, hkws] at hq
    injection hq with hq2
    rw [calc_some cfg a2 c hc2, hkws]
    have hdelta := scoreWith_delta kws a a2 k 1 0 hcount (by simpa using hT)
      (by simpa using hS) hoth hbonus
    refine ⟨?_, by linarith⟩
    rw [hdelta, hq2]
    norm_num
  · intro cfg a a2 c k kws q hc hc2 hkws hcount hT hS hoth hbonus hq
    rw [calc_some cfg a c hc, hkws] at hq
    injection hq with hq2
    rw [calc_some cfg a2 c hc2, hkws]
    have hdelta := scoreWith_delta kws a a2 k 0 1 hcount (by simpa using hT)
      (by simpa using hS) hoth hbonus
    refine ⟨?_, by linarith⟩
    rw [hdelta, hq2]
    norm_num

/-- C5 counterexample: with the overlapping keywords bitcoin and coin,
adding one bitcoin occurrence to a title that already holds one raises the
score by 4.0, not by 2.0, because the added text also adds a coin
occurrence. -/
theorem C5_counterexample :
    countOccs (lowerStr (btcArt.title.getD "")).data (lowerStr "bitcoin").data = 1 ∧
    countOccs (lowerStr (btcArt2.title.getD "")).data (lowerStr "bitcoin").data = 2 ∧
    calculate_relevance_score overlapConfig btcArt = some 4 ∧
    calculate_relevance_score overlapConfig btcArt2 = some 8 ∧
    (8 : ℚ) ≠ 4 + 2 :=
  ⟨by decide, by decide, calc_btcArt, calc_btcArt2, by norm_num⟩

/-- C5 witness: with the single keyword gold, doubling the title occurrence
raises the score from 2 to 4, exactly plus 2. -/
theorem C5_score_delta_witness :
    calculate_relevance_score singleKwConfig wArt2 = some (2 + 2) ∧ (2 : ℚ) < 2 + 2 :=
  C5_score_delta.1 singleKwConfig wArt wArt2 "gold" "gold" ["gold"] 2
    rfl rfl (by decide) (by decide) (by decide) (by decide) (by decide) (by decide) calc_wArt
